import Mathlib

/-!
Verification of the dynarmic decoder helpers
(`src/dynarmic/frontend/decoder/decoder_detail.h`).

The C++ code is embedded shallowly:

* the opcode word is a `Nat` (all bit positions used by the code are `< W`,
  the opcode bit size, so `Nat` arithmetic coincides with the machine
  arithmetic of `opcode_type`);
* the bitstring `std::array<char, opcode_bitsize>` is a `List Char`,
  scanned left to right with the loop counter `i` carried explicitly;
* `throw std::out_of_range` and the trailing `ASSERT` become an
  `Except ArgError` result;
* the variadic pack expansion of `VisitorCaller::Make` becomes a recursion
  over lists of per-argument casts, masks and shifts.
-/

namespace Dynarmic.Decoder

/-- The C++ scanner's sentinel `char ch = 0` ("no field currently open"). -/
def nulChar : Char := Char.ofNat 0

/-- The loop test `bitstring[i] == '0' || bitstring[i] == '1' || bitstring[i] == '-'`:
characters that are fixed bits or don't-care bits, i.e. not field markers. -/
def isFixedOrDontCare (c : Char) : Bool :=
  c == '0' || c == '1' || c == '-'

/-- Loop body accumulator of `GetMaskAndExpect` (source lines 49–63).
`i` is the loop counter; the bit position is `W - i - 1`. -/
def maskExpectGo (W : Nat) : List Char → Nat → Nat × Nat → Nat × Nat
  | [], _, me => me
  | c :: rest, i, (mask, expect) =>
    if c = '0' then
      maskExpectGo W rest (i + 1) (mask ||| 2 ^ (W - i - 1), expect)
    else if c = '1' then
      maskExpectGo W rest (i + 1) (mask ||| 2 ^ (W - i - 1), expect ||| 2 ^ (W - i - 1))
    else
      maskExpectGo W rest (i + 1) (mask, expect)

/-- `detail::GetMaskAndExpect` (source lines 46–65): mask/expect pair of a bitstring. -/
def GetMaskAndExpect (W : Nat) (bitstring : List Char) : Nat × Nat :=
  maskExpectGo W bitstring 0 (0, 0)

/-- The two failure modes of `GetArgInfo`: `throw std::out_of_range("Unexpected field")`
and the trailing `ASSERT` that every argument mask is non-zero. -/
inductive ArgError where
  | outOfRange
  | assertFailed
deriving DecidableEq

/-- One step of the `(arg_index, ch)` cursor of the `GetArgInfo` loop
(source lines 80–91).  `s.1` is `arg_index`, `s.2` is `ch` (`nulChar` = no open field). -/
def cursorStep (s : Nat × Char) (c : Char) : Nat × Char :=
  if isFixedOrDontCare c then
    if s.2 ≠ nulChar then (s.1 + 1, nulChar) else s
  else
    if s.2 = nulChar then (s.1, c)
    else if s.2 ≠ c then (s.1 + 1, c)
    else s

/-- The `GetArgInfo` loop (source lines 79–105).  On a field-marker character the
cursor is updated first; then the bound check runs and the tables are updated.
For `N > 0` the source throws when `arg_index >= N`; for `N = 0` it throws
unconditionally on any field marker, which coincides with `arg_index ≥ 0 = N`,
so both `constexpr` branches read `if arg_index ≥ N then throw`. -/
def argScanGo (W N : Nat) : List Char → Nat → Nat × Char → List Nat → List Nat →
    Except ArgError (List Nat × List Nat)
  | [], _, _, masks, shifts => .ok (masks, shifts)
  | c :: rest, i, s, masks, shifts =>
    if isFixedOrDontCare c then
      argScanGo W N rest (i + 1) (cursorStep s c) masks shifts
    else
      if (cursorStep s c).1 ≥ N then
        .error .outOfRange
      else
        argScanGo W N rest (i + 1) (cursorStep s c)
          (masks.set (cursorStep s c).1
            (masks.getD (cursorStep s c).1 0 ||| 2 ^ (W - i - 1)))
          (shifts.set (cursorStep s c).1 (W - i - 1))

/-- The scan part of `detail::GetArgInfo` — everything up to (not including) the
trailing `ASSERT`.  This is exactly the `DYNARMIC_IGNORE_ASSERTS` variant of
`GetArgInfo`. -/
def GetArgInfoScan (W N : Nat) (bitstring : List Char) :
    Except ArgError (List Nat × List Nat) :=
  argScanGo W N bitstring 0 (0, nulChar) (List.replicate N 0) (List.replicate N 0)

/-- `detail::GetArgInfo` (source lines 73–113) with assertions enabled: the scan,
followed by `ASSERT(std::all_of(masks.begin(), masks.end(), m ≠ 0))`. -/
def GetArgInfo (W N : Nat) (bitstring : List Char) :
    Except ArgError (List Nat × List Nat) :=
  match GetArgInfoScan W N bitstring with
  | .error e => .error e
  | .ok (masks, shifts) =>
    if masks.all (fun m => m != 0) then .ok (masks, shifts) else .error .assertFailed

/-- The matcher value assembled by `GetMatcher`: name, mask/expect pair and the
dispatch callable. -/
structure Matcher (V R : Type) where
  name : String
  mask : Nat
  expect : Nat
  fn : V → Nat → R

/-- The argument pack built by `VisitorCaller::Make`'s expansion
`static_cast<Args>((instruction & arg_masks[iota]) >> arg_shifts[iota])...`
(source lines 135–140).  Each `static_cast<Args[i]>` is modelled by the
caller-supplied function `casts[i] : Nat → Nat` applied to the zero-extended
mask-and-shift extraction. -/
def packArgs (instruction : Nat) : List (Nat → Nat) → List Nat → List Nat → List Nat
  | cast :: casts, m :: ms, sh :: ss =>
    cast ((instruction &&& m) >>> sh) :: packArgs instruction casts ms ss
  | _, _, _ => []

/-- `detail::VisitorCaller::Make` (source lines 127–159): builds the dispatch
lambda.  The handler member pointer is modelled as `fn : V → List Nat → R`
consuming the visitor and the cast argument pack (this covers both the
mutating and the `const` specialization, which build the same lambda body). -/
def VisitorCallerMake {V R : Type} (fn : V → List Nat → R) (casts : List (Nat → Nat))
    (arg_masks : List Nat) (arg_shifts : List Nat) : V → Nat → R :=
  fun v instruction => fn v (packArgs instruction casts arg_masks arg_shifts)

/-- `detail::GetMatcher` (source lines 168–177): bundles name, mask/expect and
the dispatch callable built by `VisitorCaller::Make`. -/
def GetMatcher {V R : Type} (fn : V → List Nat → R) (casts : List (Nat → Nat))
    (name : String) (mask_and_expect : Nat × Nat)
    (masks_and_shifts : List Nat × List Nat) : Matcher V R :=
  Matcher.mk name mask_and_expect.1 mask_and_expect.2
    (VisitorCallerMake fn casts masks_and_shifts.1 masks_and_shifts.2)

/-! ### Specification-side definitions

These transcribe the spec's description of the pattern language (spec §3, §4.1,
§4.2) and are compared against the embedded source functions above. -/

/-- Spec side: digit contributed to `mask` at a pattern position —
1 for a fixed bit (`'0'` or `'1'`), 0 otherwise. -/
def maskDigit (c : Char) : Nat := if c = '0' ∨ c = '1' then 1 else 0

/-- Spec side: digit contributed to `expect` at a pattern position —
1 exactly for `'1'`.  For a pattern of only `'0'`/`'1'` characters,
`patBits expectDigit` is "the pattern read as a binary integer". -/
def expectDigit (c : Char) : Nat := if c = '1' then 1 else 0

/-- Spec side: read a pattern as a binary numeral whose digit at each
position is given by `f`. -/
def patBits (f : Char → Nat) : List Char → Nat
  | [] => 0
  | c :: rest => 2 ^ rest.length * f c + patBits f rest

/-- Spec side: for each pattern position, the field index (`arg_index` value)
it is recorded under — `none` at fixed and don't-care positions. -/
def assignListGo : List Char → Nat × Char → List (Option Nat)
  | [], _ => []
  | c :: rest, s =>
    (if isFixedOrDontCare c then none else some (cursorStep s c).1)
      :: assignListGo rest (cursorStep s c)

/-- Field-index assignment of a whole pattern, from the initial cursor. -/
def assignList (bs : List Char) : List (Option Nat) :=
  assignListGo bs (0, nulChar)

/-- Cursor state after scanning a whole pattern from state `s`. -/
def finalCursor (bs : List Char) (s : Nat × Char) : Nat × Char :=
  bs.foldl cursorStep s

/-- Fields the cursor state `s` accounts for: the closed fields (`arg_index`)
plus the still-open one, if any. -/
def gWeight (s : Nat × Char) : Nat :=
  s.1 + (if s.2 = nulChar then 0 else 1)

/-- Number of distinct fields the cursor has seen after scanning `bs` from `s`. -/
def fieldCountFrom (bs : List Char) (s : Nat × Char) : Nat :=
  gWeight (finalCursor bs s)

/-- Spec side: the number of distinct fields of a pattern (spec §3/§4.2:
maximal runs of marker characters, merged/split by the cursor transition rule). -/
def fieldCount (bs : List Char) : Nat :=
  fieldCountFrom bs (0, nulChar)

/-- Spec side: the mask of field `k` — OR of the single-bit masks at every
pattern position assigned to field `k` (spec §3: "mask (OR of single-bit
masks at every position belonging to that field's runs)"). -/
def specMaskGo (W k : Nat) : List (Option Nat) → Nat → Nat
  | [], _ => 0
  | a :: rest, i =>
    (if a = some k then 2 ^ (W - i - 1) else 0) ||| specMaskGo W k rest (i + 1)

/-- Spec side: mask of field `k` of pattern `bs`. -/
def specFieldMask (W : Nat) (bs : List Char) (k : Nat) : Nat :=
  specMaskGo W k (assignList bs) 0

/-- Spec side: the shift of field `k` — the bit position of the last-scanned
character assigned to `k` (spec §4.2: "overwrite that field's shift with the
current bit position"); `dflt` is the value when no position is assigned. -/
def specShiftGo (W k : Nat) : List (Option Nat) → Nat → Nat → Nat
  | [], _, dflt => dflt
  | a :: rest, i, dflt =>
    specShiftGo W k rest (i + 1) (if a = some k then W - i - 1 else dflt)

/-- Spec side: shift of field `k` of pattern `bs` (0 when `k` is not a field,
matching the zero-initialized `shifts` array). -/
def specFieldShift (W : Nat) (bs : List Char) (k : Nat) : Nat :=
  specShiftGo W k (assignList bs) 0 0

/-- The per-field index values, in scan order. -/
def assignedGo (bs : List Char) (s : Nat × Char) : List Nat :=
  (assignListGo bs s).filterMap id

/-! ### Lemmas about `GetMaskAndExpect` -/

theorem patBits_lt {f : Char → Nat} (hf : ∀ c, f c ≤ 1) :
    ∀ bs : List Char, patBits f bs < 2 ^ bs.length := by
  intro bs
  induction bs with
  | nil => simp [patBits]
  | cons c rest ih =>
    simp only [patBits, List.length_cons]
    have h1 : 2 ^ rest.length * f c ≤ 2 ^ rest.length * 1 :=
      Nat.mul_le_mul_left _ (hf c)
    have h2 : 2 ^ (rest.length + 1) = 2 ^ rest.length + 2 ^ rest.length := by
      rw [Nat.pow_succ]; omega
    omega

theorem maskDigit_le_one (c : Char) : maskDigit c ≤ 1 := by
  unfold maskDigit; split <;> simp

theorem expectDigit_le_one (c : Char) : expectDigit c ≤ 1 := by
  unfold expectDigit; split <;> simp

theorem two_pow_add_eq_or {n b : Nat} (hb : b < 2 ^ n) : 2 ^ n + b = 2 ^ n ||| b := by
  have h := Nat.mul_add_lt_is_or hb 1
  simpa using h

theorem patBits_cons_one {f : Char → Nat} (hf : ∀ c, f c ≤ 1) {c : Char}
    (rest : List Char) (h : f c = 1) :
    patBits f (c :: rest) = 2 ^ rest.length ||| patBits f rest := by
  rw [patBits, h, Nat.mul_one, two_pow_add_eq_or (patBits_lt hf rest)]

theorem patBits_cons_zero {f : Char → Nat} {c : Char} (rest : List Char) (h : f c = 0) :
    patBits f (c :: rest) = patBits f rest := by
  rw [patBits, h, Nat.mul_zero, Nat.zero_add]

theorem maskExpectGo_closed (W : Nat) :
    ∀ (bs : List Char) (i m e : Nat), i + bs.length = W →
      maskExpectGo W bs i (m, e)
        = (m ||| patBits maskDigit bs, e ||| patBits expectDigit bs) := by
  intro bs
  induction bs with
  | nil => intro i m e _; simp [maskExpectGo, patBits]
  | cons c rest ih =>
    intro i m e hiW
    have hbp : W - i - 1 = rest.length := by
      simp only [List.length_cons] at hiW; omega
    have hiW' : i + 1 + rest.length = W := by
      simp only [List.length_cons] at hiW; omega
    by_cases h0 : c = '0'
    · have hstep : maskExpectGo W (c :: rest) i (m, e)
          = maskExpectGo W rest (i + 1) (m ||| 2 ^ (W - i - 1), e) := by
        simp [maskExpectGo, h0]
      rw [hstep, ih (i + 1) _ _ hiW',
        patBits_cons_one maskDigit_le_one rest (by simp [maskDigit, h0]),
        patBits_cons_zero rest (by simp [expectDigit, h0]), hbp, ← Nat.or_assoc]
    · by_cases h1 : c = '1'
      · have hstep : maskExpectGo W (c :: rest) i (m, e)
            = maskExpectGo W rest (i + 1)
                (m ||| 2 ^ (W - i - 1), e ||| 2 ^ (W - i - 1)) := by
          simp [maskExpectGo, h0, h1]
        rw [hstep, ih (i + 1) _ _ hiW',
          patBits_cons_one maskDigit_le_one rest (by simp [maskDigit, h1]),
          patBits_cons_one expectDigit_le_one rest (by simp [expectDigit, h1]),
          hbp, ← Nat.or_assoc, ← Nat.or_assoc]
      · have hstep : maskExpectGo W (c :: rest) i (m, e)
            = maskExpectGo W rest (i + 1) (m, e) := by
          simp [maskExpectGo, h0, h1]
        rw [hstep, ih (i + 1) _ _ hiW',
          patBits_cons_zero rest (by simp [maskDigit, h0, h1]),
          patBits_cons_zero rest (by simp [expectDigit, h1])]

theorem GetMaskAndExpect_eq (W : Nat) (bs : List Char) (hLen : bs.length = W) :
    GetMaskAndExpect W bs = (patBits maskDigit bs, patBits expectDigit bs) := by
  unfold GetMaskAndExpect
  rw [maskExpectGo_closed W bs 0 0 0 (by omega)]
  simp [Nat.zero_or]

theorem patBits_testBit {f : Char → Nat} (hf : ∀ c, f c ≤ 1) :
    ∀ (bs : List Char) (i : Nat), i < bs.length →
      (patBits f bs).testBit (bs.length - 1 - i) = decide (f (bs.getD i '?') = 1) := by
  intro bs
  induction bs with
  | nil => intro i h; simp at h
  | cons c rest ih =>
    intro i hi
    match i with
    | 0 =>
      have hlen : (c :: rest).length - 1 - 0 = rest.length := by simp
      rw [hlen, List.getD_cons_zero, patBits,
        Nat.testBit_mul_pow_two_add (f c) (patBits_lt hf rest) rest.length,
        if_neg (Nat.lt_irrefl _), Nat.sub_self, Nat.testBit_zero]
      have hc : f c = 0 ∨ f c = 1 := by have := hf c; omega
      rcases hc with h | h <;> simp [h]
    | i' + 1 =>
      have hi' : i' < rest.length := by simp at hi; omega
      have hpos : (c :: rest).length - 1 - (i' + 1) = rest.length - 1 - i' := by
        simp; omega
      rw [hpos, List.getD_cons_succ, patBits,
        Nat.testBit_mul_pow_two_add (f c) (patBits_lt hf rest) (rest.length - 1 - i'),
        if_pos (by omega : rest.length - 1 - i' < rest.length)]
      exact ih i' hi'

theorem patBits_testBit_ge {f : Char → Nat} (hf : ∀ c, f c ≤ 1) (bs : List Char)
    {j : Nat} (hj : bs.length ≤ j) : (patBits f bs).testBit j = false :=
  Nat.testBit_lt_two_pow
    (lt_of_lt_of_le (patBits_lt hf bs) (Nat.pow_le_pow_right (by norm_num) hj))

/-- The matching test `x & mask == expect`, characterized position by position. -/
theorem matches_iff (bs : List Char) (x : Nat) :
    x &&& patBits maskDigit bs = patBits expectDigit bs ↔
    (∀ i, i < bs.length →
      (bs.getD i '?' = '0' → x.testBit (bs.length - 1 - i) = false)
      ∧ (bs.getD i '?' = '1' → x.testBit (bs.length - 1 - i) = true)) := by
  constructor
  · intro hEq i hi
    have hbit := congrArg (fun t => t.testBit (bs.length - 1 - i)) hEq
    simp only [Nat.testBit_and] at hbit
    rw [patBits_testBit maskDigit_le_one bs i hi,
      patBits_testBit expectDigit_le_one bs i hi] at hbit
    generalize hgc : bs.getD i '?' = c at hbit ⊢
    constructor
    · intro h0
      have h1 : c ≠ '1' := by rw [h0]; decide
      simpa [maskDigit, expectDigit, h0, h1] using hbit
    · intro h1
      simpa [maskDigit, expectDigit, h1] using hbit
  · intro h
    apply Nat.eq_of_testBit_eq
    intro j
    rw [Nat.testBit_and]
    by_cases hj : j < bs.length
    · have hi : bs.length - 1 - j < bs.length := by omega
      have hpos : bs.length - 1 - (bs.length - 1 - j) = j := by omega
      have hM := patBits_testBit maskDigit_le_one bs _ hi
      have hE := patBits_testBit expectDigit_le_one bs _ hi
      rw [hpos] at hM hE
      rw [hM, hE]
      rcases h _ hi with ⟨h0, h1⟩
      rw [hpos] at h0 h1
      generalize hgc : bs.getD (bs.length - 1 - j) '?' = c at h0 h1 ⊢
      by_cases hc0 : c = '0'
      · have hne : c ≠ '1' := by rw [hc0]; decide
        simp [maskDigit, expectDigit, hc0, hne, h0 hc0]
      · by_cases hc1 : c = '1'
        · simp [maskDigit, expectDigit, hc1, h1 hc1]
        · simp [maskDigit, expectDigit, hc0, hc1]
    · rw [patBits_testBit_ge maskDigit_le_one bs (by omega),
        patBits_testBit_ge expectDigit_le_one bs (by omega)]
      simp

/-! ### Lemmas about the `GetArgInfo` cursor -/

theorem cursorStep_fst_le (s : Nat × Char) (c : Char) : s.1 ≤ (cursorStep s c).1 := by
  unfold cursorStep
  by_cases hsep : isFixedOrDontCare c = true
  · rw [if_pos hsep]
    by_cases h1 : s.2 ≠ nulChar
    · rw [if_pos h1]; exact Nat.le_succ _
    · rw [if_neg h1]
  · rw [if_neg hsep]
    by_cases h1 : s.2 = nulChar
    · rw [if_pos h1]
    · rw [if_neg h1]
      by_cases h2 : s.2 ≠ c
      · rw [if_pos h2]; exact Nat.le_succ _
      · rw [if_neg h2]

theorem cursorStep_marker_snd {c : Char} (h : isFixedOrDontCare c = false)
    (s : Nat × Char) : (cursorStep s c).2 = c := by
  unfold cursorStep
  rw [if_neg (by simp [h])]
  by_cases h1 : s.2 = nulChar
  · rw [if_pos h1]
  · rw [if_neg h1]
    by_cases h2 : s.2 ≠ c
    · rw [if_pos h2]
    · rw [if_neg h2]
      push_neg at h2
      exact h2

theorem cursorStep_sep_snd {c : Char} (h : isFixedOrDontCare c = true)
    (s : Nat × Char) : (cursorStep s c).2 = nulChar := by
  unfold cursorStep
  rw [if_pos h]
  by_cases h1 : s.2 ≠ nulChar
  · rw [if_pos h1]
  · rw [if_neg h1]
    push_neg at h1
    exact h1

theorem gWeight_sep_eq {c : Char} (h : isFixedOrDontCare c = true) (s : Nat × Char) :
    gWeight (cursorStep s c) = gWeight s := by
  unfold gWeight cursorStep
  rw [if_pos h]
  by_cases h1 : s.2 ≠ nulChar
  · rw [if_pos h1]
    simp [h1]
  · rw [if_neg h1]

theorem gWeight_step_le {c : Char} (hc : c ≠ nulChar) (s : Nat × Char) :
    gWeight s ≤ gWeight (cursorStep s c) := by
  by_cases hsep : isFixedOrDontCare c = true
  · exact (gWeight_sep_eq hsep s).ge
  · have hsep' : ¬(isFixedOrDontCare c = true) := by simp_all
    unfold gWeight cursorStep
    rw [if_neg hsep']
    by_cases h1 : s.2 = nulChar
    · rw [if_pos h1]
      simp [h1, hc]
    · rw [if_neg h1]
      by_cases h2 : s.2 ≠ c
      · rw [if_pos h2]
        simp [h1, hc]
      · rw [if_neg h2]
        simp [h1]

theorem cursorStep_marker_fst_le {c : Char} (h : isFixedOrDontCare c = false)
    (s : Nat × Char) : (cursorStep s c).1 ≤ gWeight s := by
  unfold gWeight cursorStep
  rw [if_neg (by simp [h])]
  by_cases h1 : s.2 = nulChar
  · rw [if_pos h1]
    exact Nat.le_add_right _ _
  · rw [if_neg h1]
    by_cases h2 : s.2 ≠ c
    · rw [if_pos h2]
      simp [h1]
    · rw [if_neg h2]
      simp [h1]

theorem finalCursor_cons (c : Char) (rest : List Char) (s : Nat × Char) :
    finalCursor (c :: rest) s = finalCursor rest (cursorStep s c) := rfl

theorem fieldCountFrom_cons (c : Char) (rest : List Char) (s : Nat × Char) :
    fieldCountFrom (c :: rest) s = fieldCountFrom rest (cursorStep s c) := rfl

theorem fieldCountFrom_nil (s : Nat × Char) : fieldCountFrom [] s = gWeight s := rfl

theorem finalCursor_fst_le (bs : List Char) :
    ∀ s : Nat × Char, s.1 ≤ (finalCursor bs s).1 := by
  induction bs with
  | nil => intro s; exact Nat.le_refl _
  | cons c rest ih =>
    intro s
    exact Nat.le_trans (cursorStep_fst_le s c) (ih (cursorStep s c))

theorem gWeight_le_fieldCountFrom (bs : List Char) (hNul : ∀ c ∈ bs, c ≠ nulChar) :
    ∀ s : Nat × Char, gWeight s ≤ fieldCountFrom bs s := by
  induction bs with
  | nil => intro s; exact Nat.le_refl _
  | cons c rest ih =>
    intro s
    rw [fieldCountFrom_cons]
    exact Nat.le_trans (gWeight_step_le (hNul c (List.mem_cons_self _ _)) s)
      (ih (fun c' hc' => hNul c' (List.mem_cons_of_mem _ hc')) (cursorStep s c))

theorem assignListGo_length (bs : List Char) :
    ∀ s : Nat × Char, (assignListGo bs s).length = bs.length := by
  induction bs with
  | nil => intro s; rfl
  | cons c rest ih =>
    intro s
    simp only [assignListGo, List.length_cons, ih]

/-- Every field index recorded during the scan is below the total field count. -/
theorem assigned_lt (bs : List Char) (hNul : ∀ c ∈ bs, c ≠ nulChar) :
    ∀ (s : Nat × Char) (a : Option Nat), a ∈ assignListGo bs s →
      ∀ k, a = some k → k < fieldCountFrom bs s := by
  induction bs with
  | nil => intro s a ha; simp [assignListGo] at ha
  | cons c rest ih =>
    intro s a ha k hk
    have hNulTail : ∀ c' ∈ rest, c' ≠ nulChar :=
      fun c' hc' => hNul c' (List.mem_cons_of_mem _ hc')
    rw [assignListGo] at ha
    rcases List.mem_cons.mp ha with hhead | htail
    · by_cases hsep : isFixedOrDontCare c = true
      · rw [if_pos hsep] at hhead
        rw [hhead] at hk
        exact absurd hk (by simp)
      · have hsep' : isFixedOrDontCare c = false := by
          revert hsep; cases isFixedOrDontCare c <;> simp
        rw [if_neg (by simp [hsep'])] at hhead
        rw [hhead] at hk
        have hkval : k = (cursorStep s c).1 := by
          exact (Option.some.injEq _ _ ▸ hk.symm)
        have hsnd : (cursorStep s c).2 = c := cursorStep_marker_snd hsep' s
        have hg : gWeight (cursorStep s c) = k + 1 := by
          unfold gWeight
          rw [hsnd, if_neg (hNul c (List.mem_cons_self _ _)), hkval]
        have := gWeight_le_fieldCountFrom rest hNulTail (cursorStep s c)
        rw [fieldCountFrom_cons]
        omega
    · rw [fieldCountFrom_cons]
      exact ih hNulTail (cursorStep s c) a htail k hk

/-- Every index below the total field count is recorded during the scan
(the field indices have no gaps). -/
theorem assigned_cover (bs : List Char) (hNul : ∀ c ∈ bs, c ≠ nulChar) :
    ∀ (s : Nat × Char) (k : Nat), gWeight s ≤ k → k < fieldCountFrom bs s →
      some k ∈ assignListGo bs s := by
  induction bs with
  | nil =>
    intro s k h1 h2
    rw [fieldCountFrom_nil] at h2
    omega
  | cons c rest ih =>
    intro s k h1 h2
    have hNulTail : ∀ c' ∈ rest, c' ≠ nulChar :=
      fun c' hc' => hNul c' (List.mem_cons_of_mem _ hc')
    rw [fieldCountFrom_cons] at h2
    rw [assignListGo]
    by_cases hsep : isFixedOrDontCare c = true
    · apply List.mem_cons_of_mem
      exact ih hNulTail (cursorStep s c) k (by rw [gWeight_sep_eq hsep]; exact h1) h2
    · have hsep' : isFixedOrDontCare c = false := by
        revert hsep; cases isFixedOrDontCare c <;> simp
      by_cases hkj : k = (cursorStep s c).1
      · rw [if_neg (by simp [hsep']), hkj]
        exact List.mem_cons_self _ _
      · apply List.mem_cons_of_mem
        have hsnd : (cursorStep s c).2 = c := cursorStep_marker_snd hsep' s
        have hg : gWeight (cursorStep s c) = (cursorStep s c).1 + 1 := by
          unfold gWeight
          rw [hsnd, if_neg (hNul c (List.mem_cons_self _ _))]
        have hle : (cursorStep s c).1 ≤ gWeight s := cursorStep_marker_fst_le hsep' s
        exact ih hNulTail (cursorStep s c) k (by omega) h2

/-! ### Lemmas about `specMaskGo`, `specShiftGo` and `List.set`/`List.getD` -/

theorem or_ne_zero_left {x y : Nat} (hx : x ≠ 0) : x ||| y ≠ 0 := by
  intro h
  apply hx
  apply Nat.zero_of_testBit_eq_false
  intro n
  have hbit := congrArg (fun t => t.testBit n) h
  simp only [Nat.testBit_or, Nat.zero_testBit] at hbit
  exact (Bool.or_eq_false_iff.mp hbit).1

theorem or_ne_zero_right {x y : Nat} (hy : y ≠ 0) : x ||| y ≠ 0 := by
  rw [Nat.or_comm]
  exact or_ne_zero_left hy

theorem getD_set_self {l : List Nat} {i : Nat} (a : Nat) (h : i < l.length) :
    (l.set i a).getD i 0 = a := by
  rw [List.getD_eq_getElem _ _ (by rw [List.length_set]; exact h)]
  exact List.getElem_set_self _

theorem getD_set_ne {l : List Nat} {i j : Nat} (hne : i ≠ j) (a : Nat) :
    (l.set i a).getD j 0 = l.getD j 0 := by
  by_cases hj : j < l.length
  · rw [List.getD_eq_getElem _ _ (by rw [List.length_set]; exact hj),
      List.getD_eq_getElem _ _ hj]
    exact List.getElem_set_ne hne _
  · rw [List.getD_eq_default _ _ (by rw [List.length_set]; omega),
      List.getD_eq_default _ _ (by omega)]

theorem specMaskGo_absent (W k : Nat) :
    ∀ (A : List (Option Nat)) (i : Nat), some k ∉ A → specMaskGo W k A i = 0 := by
  intro A
  induction A with
  | nil => intro i _; rfl
  | cons a rest ih =>
    intro i hmem
    rw [specMaskGo, if_neg (fun h => hmem (by rw [← h]; exact List.mem_cons_self _ _)),
      ih (i + 1) (fun h => hmem (List.mem_cons_of_mem _ h)), Nat.zero_or]

theorem specMaskGo_ne_zero (W k : Nat) :
    ∀ (A : List (Option Nat)) (i : Nat), some k ∈ A → specMaskGo W k A i ≠ 0 := by
  intro A
  induction A with
  | nil => intro i h; simp at h
  | cons a rest ih =>
    intro i hmem
    rw [specMaskGo]
    by_cases ha : a = some k
    · rw [if_pos ha]
      exact or_ne_zero_left (Nat.pos_pow_of_pos _ (by norm_num)).ne'
    · rcases List.mem_cons.mp hmem with hh | ht
      · exact absurd hh.symm ha
      · exact or_ne_zero_right (ih (i + 1) ht)

theorem specShiftGo_absent (W k : Nat) :
    ∀ (A : List (Option Nat)) (i d : Nat), some k ∉ A → specShiftGo W k A i d = d := by
  intro A
  induction A with
  | nil => intro i d _; rfl
  | cons a rest ih =>
    intro i d hmem
    rw [specShiftGo, if_neg (fun h => hmem (by rw [← h]; exact List.mem_cons_self _ _)),
      ih (i + 1) d (fun h => hmem (List.mem_cons_of_mem _ h))]

/-- When field `k` occurs in the assignment list, `specShiftGo` evaluates to the
bit position of its last occurrence. -/
theorem specShiftGo_last (W k : Nat) :
    ∀ A : List (Option Nat), some k ∈ A →
      ∃ t, t < A.length ∧ A.getD t none = some k
        ∧ (∀ u, t < u → u < A.length → A.getD u none ≠ some k)
        ∧ ∀ i d, specShiftGo W k A i d = W - (i + t) - 1 := by
  intro A
  induction A with
  | nil => intro h; simp at h
  | cons a rest ih =>
    intro hmem
    by_cases hrest : some k ∈ rest
    · obtain ⟨t, ht, hget, hafter, heval⟩ := ih hrest
      refine ⟨t + 1, by simp only [List.length_cons]; omega,
        by rw [List.getD_cons_succ]; exact hget, ?_, ?_⟩
      · intro u hu1 hu2
        match u with
        | 0 => omega
        | u' + 1 =>
          rw [List.getD_cons_succ]
          exact hafter u' (by omega) (by simp only [List.length_cons] at hu2; omega)
      · intro i d
        rw [specShiftGo, heval (i + 1)]
        have : i + 1 + t = i + (t + 1) := by omega
        rw [this]
    · have hhead : a = some k := by
        rcases List.mem_cons.mp hmem with hh | ht
        · exact hh.symm
        · exact absurd ht hrest
      refine ⟨0, by simp, by rw [List.getD_cons_zero]; exact hhead, ?_, ?_⟩
      · intro u hu1 hu2
        match u with
        | 0 => omega
        | u' + 1 =>
          rw [List.getD_cons_succ]
          intro hEq
          apply hrest
          have hu' : u' < rest.length := by simp only [List.length_cons] at hu2; omega
          rw [List.getD_eq_getElem _ _ hu'] at hEq
          rw [← hEq]
          exact List.getElem_mem hu'
      · intro i d
        rw [specShiftGo, if_pos hhead, specShiftGo_absent W k rest (i + 1) _ hrest]
        omega

/-! ### The `GetArgInfo` scan: success and failure characterization -/

theorem argScanGo_cons (W N : Nat) (c : Char) (rest : List Char) (i : Nat)
    (s : Nat × Char) (masks shifts : List Nat) :
    argScanGo W N (c :: rest) i s masks shifts =
      if isFixedOrDontCare c then
        argScanGo W N rest (i + 1) (cursorStep s c) masks shifts
      else if (cursorStep s c).1 ≥ N then .error .outOfRange
      else argScanGo W N rest (i + 1) (cursorStep s c)
        (masks.set (cursorStep s c).1
          (masks.getD (cursorStep s c).1 0 ||| 2 ^ (W - i - 1)))
        (shifts.set (cursorStep s c).1 (W - i - 1)) := rfl

/-- When every recorded field index is in range, the scan succeeds and the
tables it returns are the spec-side per-field masks and shifts, OR-ed over the
initial tables. -/
theorem argScanGo_ok (W N : Nat) :
    ∀ (bs : List Char) (i : Nat) (s : Nat × Char) (masks shifts : List Nat),
      masks.length = N → shifts.length = N →
      (∀ a ∈ assignListGo bs s, ∀ k, a = some k → k < N) →
      ∃ M S, argScanGo W N bs i s masks shifts = .ok (M, S)
        ∧ M.length = N ∧ S.length = N
        ∧ ∀ k, k < N →
            M.getD k 0 = masks.getD k 0 ||| specMaskGo W k (assignListGo bs s) i
            ∧ S.getD k 0 = specShiftGo W k (assignListGo bs s) i (shifts.getD k 0) := by
  intro bs
  induction bs with
  | nil =>
    intro i s masks shifts hm hs _
    refine ⟨masks, shifts, rfl, hm, hs, ?_⟩
    intro k _
    constructor
    · simp [assignListGo, specMaskGo]
    · simp [assignListGo, specShiftGo]
  | cons c rest ih =>
    intro i s masks shifts hm hs hlt
    rw [argScanGo_cons]
    by_cases hsep : isFixedOrDontCare c = true
    · rw [if_pos hsep]
      have hA : assignListGo (c :: rest) s
          = none :: assignListGo rest (cursorStep s c) := by
        rw [assignListGo, if_pos hsep]
      have hlt' : ∀ a ∈ assignListGo rest (cursorStep s c), ∀ k, a = some k → k < N :=
        fun a ha k hk => hlt a (by rw [hA]; exact List.mem_cons_of_mem _ ha) k hk
      obtain ⟨M, S, hrun, hMl, hSl, hMS⟩ := ih (i + 1) (cursorStep s c) masks shifts hm hs hlt'
      refine ⟨M, S, hrun, hMl, hSl, ?_⟩
      intro k hk
      rw [hA]
      constructor
      · rw [specMaskGo, if_neg (by simp), Nat.zero_or]
        exact (hMS k hk).1
      · rw [specShiftGo, if_neg (by simp)]
        exact (hMS k hk).2
    · rw [if_neg hsep]
      have hsep' : isFixedOrDontCare c = false := by
        revert hsep; cases isFixedOrDontCare c <;> simp
      have hA : assignListGo (c :: rest) s
          = some (cursorStep s c).1 :: assignListGo rest (cursorStep s c) := by
        rw [assignListGo, if_neg (by simp [hsep'])]
      have hjN : (cursorStep s c).1 < N :=
        hlt (some (cursorStep s c).1) (by rw [hA]; exact List.mem_cons_self _ _) _ rfl
      rw [if_neg (by omega)]
      have hm' : (masks.set (cursorStep s c).1
          (masks.getD (cursorStep s c).1 0 ||| 2 ^ (W - i - 1))).length = N := by
        rw [List.length_set]; exact hm
      have hs' : (shifts.set (cursorStep s c).1 (W - i - 1)).length = N := by
        rw [List.length_set]; exact hs
      have hlt' : ∀ a ∈ assignListGo rest (cursorStep s c), ∀ k, a = some k → k < N :=
        fun a ha k hk => hlt a (by rw [hA]; exact List.mem_cons_of_mem _ ha) k hk
      obtain ⟨M, S, hrun, hMl, hSl, hMS⟩ := ih (i + 1) (cursorStep s c) _ _ hm' hs' hlt'
      refine ⟨M, S, hrun, hMl, hSl, ?_⟩
      intro k hk
      rw [hA]
      by_cases hkj : k = (cursorStep s c).1
      · constructor
        · rw [specMaskGo, if_pos (by rw [hkj]), (hMS k hk).1]
          rw [hkj, getD_set_self _ (by rw [hm]; exact hjN), Nat.or_assoc]
        · rw [specShiftGo, if_pos (by rw [hkj]), (hMS k hk).2]
          rw [hkj, getD_set_self _ (by rw [hs]; exact hjN)]
      · constructor
        · rw [specMaskGo, if_neg (fun h => hkj (Option.some.inj h).symm), Nat.zero_or,
            (hMS k hk).1, getD_set_ne (fun h => hkj h.symm) _]
        · rw [specShiftGo, if_neg (fun h => hkj (Option.some.inj h).symm),
            (hMS k hk).2, getD_set_ne (fun h => hkj h.symm) _]

/-- When some recorded field index is out of range, the scan throws
`std::out_of_range`. -/
theorem argScanGo_error (W N : Nat) :
    ∀ (bs : List Char) (i : Nat) (s : Nat × Char) (masks shifts : List Nat),
      (∃ a ∈ assignListGo bs s, ∃ k, a = some k ∧ N ≤ k) →
      argScanGo W N bs i s masks shifts = .error .outOfRange := by
  intro bs
  induction bs with
  | nil =>
    intro i s masks shifts h
    obtain ⟨a, ha, _⟩ := h
    simp [assignListGo] at ha
  | cons c rest ih =>
    intro i s masks shifts h
    obtain ⟨a, ha, k, hak, hkN⟩ := h
    rw [argScanGo_cons]
    by_cases hsep : isFixedOrDontCare c = true
    · rw [if_pos hsep]
      rw [assignListGo, if_pos hsep] at ha
      rcases List.mem_cons.mp ha with hh | ht
      · rw [hh] at hak; exact absurd hak (by simp)
      · exact ih (i + 1) (cursorStep s c) masks shifts ⟨a, ht, k, hak, hkN⟩
    · have hsep' : isFixedOrDontCare c = false := by
        revert hsep; cases isFixedOrDontCare c <;> simp
      rw [if_neg hsep]
      rw [assignListGo, if_neg (by simp [hsep'])] at ha
      by_cases hjN : (cursorStep s c).1 ≥ N
      · rw [if_pos hjN]
      · rw [if_neg hjN]
        rcases List.mem_cons.mp ha with hh | ht
        · rw [hh] at hak
          have : (cursorStep s c).1 = k := Option.some.inj hak
          omega
        · exact ih (i + 1) (cursorStep s c) _ _ ⟨a, ht, k, hak, hkN⟩

/-! ### Positional lemmas about the field-index assignment -/

/-- Cursor state just before scanning position `t` of the pattern. -/
def stateAt (bs : List Char) (t : Nat) : Nat × Char :=
  finalCursor (bs.take t) (0, nulChar)

theorem cursorStep_marker_new {c : Char} (h : isFixedOrDontCare c = false)
    {s : Nat × Char} (h1 : s.2 ≠ nulChar) (h2 : s.2 ≠ c) :
    (cursorStep s c).1 = s.1 + 1 := by
  unfold cursorStep
  rw [if_neg (by simp [h]), if_neg h1, if_pos h2]

theorem getD_mem_of_lt {bs : List Char} {t : Nat} (ht : t < bs.length) :
    bs.getD t '?' ∈ bs := by
  rw [List.getD_eq_getElem _ _ ht]
  exact List.getElem_mem ht

theorem stateAt_succ (bs : List Char) (t : Nat) (ht : t < bs.length) :
    stateAt bs (t + 1) = cursorStep (stateAt bs t) (bs.getD t '?') := by
  unfold stateAt finalCursor
  rw [List.take_succ, List.foldl_append]
  have hsome : bs[t]? = some (bs.getD t '?') := by
    rw [List.getD_eq_getElem _ _ ht]
    exact List.getElem?_eq_getElem ht
  rw [hsome]
  rfl

theorem assignList_getD (bs : List Char) :
    ∀ (s : Nat × Char) (t : Nat), t < bs.length →
      (assignListGo bs s).getD t none =
        if isFixedOrDontCare (bs.getD t '?') then none
        else some ((cursorStep (finalCursor (bs.take t) s) (bs.getD t '?')).1) := by
  induction bs with
  | nil => intro s t ht; simp at ht
  | cons c rest ih =>
    intro s t ht
    match t with
    | 0 =>
      simp only [assignListGo, List.getD_cons_zero, List.take_zero]
      rfl
    | t' + 1 =>
      simp only [assignListGo, List.getD_cons_succ, List.take_succ_cons]
      rw [ih (cursorStep s c) t' (by simp only [List.length_cons] at ht; omega)]
      rfl

theorem gWeight_stateAt_mono (bs : List Char) (hNul : ∀ c ∈ bs, c ≠ nulChar) (t : Nat) :
    ∀ u, t ≤ u → u ≤ bs.length →
      gWeight (stateAt bs t) ≤ gWeight (stateAt bs u) := by
  intro u
  induction u with
  | zero =>
    intro h1 _
    have ht0 : t = 0 := by omega
    rw [ht0]
  | succ u' ihu =>
    intro h1 h2
    by_cases heq : t = u' + 1
    · rw [heq]
    · have hu' : u' < bs.length := by omega
      refine Nat.le_trans (ihu (by omega) (by omega)) ?_
      rw [stateAt_succ bs u' hu']
      exact gWeight_step_le (hNul _ (getD_mem_of_lt hu')) _

theorem fst_stateAt_mono (bs : List Char) (t : Nat) :
    ∀ u, t ≤ u → u ≤ bs.length → (stateAt bs t).1 ≤ (stateAt bs u).1 := by
  intro u
  induction u with
  | zero =>
    intro h1 _
    have ht0 : t = 0 := by omega
    rw [ht0]
  | succ u' ihu =>
    intro h1 h2
    by_cases heq : t = u' + 1
    · rw [heq]
    · have hu' : u' < bs.length := by omega
      refine Nat.le_trans (ihu (by omega) (by omega)) ?_
      rw [stateAt_succ bs u' hu']
      exact cursorStep_fst_le _ _

theorem assignedGo_sep {c : Char} (h : isFixedOrDontCare c = true)
    (rest : List Char) (s : Nat × Char) :
    assignedGo (c :: rest) s = assignedGo rest (cursorStep s c) := by
  unfold assignedGo
  rw [assignListGo, if_pos h, List.filterMap_cons]
  rfl

theorem assignedGo_marker {c : Char} (h : isFixedOrDontCare c = false)
    (rest : List Char) (s : Nat × Char) :
    assignedGo (c :: rest) s
      = (cursorStep s c).1 :: assignedGo rest (cursorStep s c) := by
  unfold assignedGo
  rw [assignListGo, if_neg (by simp [h]), List.filterMap_cons]
  rfl

/-- The index sequence recorded by the cursor steps by 0 or 1 between
consecutive recorded positions, and its first element continues or opens
relative to the starting state. -/
theorem assigned_chain (bs : List Char) (hNul : ∀ c ∈ bs, c ≠ nulChar) :
    ∀ s : Nat × Char,
      List.Chain' (fun a b => b = a ∨ b = a + 1) (assignedGo bs s)
      ∧ (∀ a, (assignedGo bs s).head? = some a →
          a = s.1 ∨ (s.2 ≠ nulChar ∧ a = s.1 + 1)) := by
  induction bs with
  | nil =>
    intro s
    exact ⟨List.chain'_nil, by simp [assignedGo, assignListGo]⟩
  | cons c rest ih =>
    intro s
    have hNulTail : ∀ c' ∈ rest, c' ≠ nulChar :=
      fun c' hc' => hNul c' (List.mem_cons_of_mem _ hc')
    by_cases hsep : isFixedOrDontCare c = true
    · rw [assignedGo_sep hsep]
      refine ⟨(ih hNulTail (cursorStep s c)).1, ?_⟩
      intro a ha
      rcases (ih hNulTail (cursorStep s c)).2 a ha with h1 | h2
      · by_cases hnul : s.2 = nulChar
        · left
          rw [h1]
          unfold cursorStep
          rw [if_pos hsep, if_neg (by simp [hnul])]
        · right
          refine ⟨hnul, ?_⟩
          rw [h1]
          unfold cursorStep
          rw [if_pos hsep, if_pos hnul]
      · exact absurd h2.1 (by rw [cursorStep_sep_snd hsep s]; simp)
    · have hsep' : isFixedOrDontCare c = false := by
        revert hsep; cases isFixedOrDontCare c <;> simp
      rw [assignedGo_marker hsep']
      constructor
      · rw [List.chain'_cons']
        refine ⟨?_, (ih hNulTail (cursorStep s c)).1⟩
        intro y hy
        rcases (ih hNulTail (cursorStep s c)).2 y hy with h1 | h2
        · left; exact h1
        · right; exact h2.2
      · intro a ha
        have haj : a = (cursorStep s c).1 := by
          simp only [List.head?_cons, Option.some.injEq] at ha
          exact ha.symm
        by_cases hnul : s.2 = nulChar
        · left
          rw [haj]
          unfold cursorStep
          rw [if_neg (by simp [hsep']), if_pos hnul]
        · by_cases hcc : s.2 = c
          · left
            rw [haj]
            unfold cursorStep
            rw [if_neg (by simp [hsep']), if_neg hnul, if_neg (by rw [hcc]; simp)]
          · right
            exact ⟨hnul, by rw [haj, cursorStep_marker_new hsep' hnul hcc]⟩

/-! ### `GetArgInfo` end-to-end helpers -/

theorem gWeight_start : gWeight (0, nulChar) = 0 := by
  simp [gWeight]

theorem getD_replicate_zero (N k : Nat) : (List.replicate N (0 : Nat)).getD k 0 = 0 := by
  by_cases h : k < N
  · rw [List.getD_eq_getElem _ _ (by simpa using h)]
    exact List.getElem_replicate 0 (by simpa using h)
  · rw [List.getD_eq_default _ _ (by simpa using Nat.le_of_not_lt h)]

theorem assignList_getD0 (bs : List Char) (t : Nat) (ht : t < bs.length) :
    (assignList bs).getD t none =
      if isFixedOrDontCare (bs.getD t '?') then none
      else some ((cursorStep (stateAt bs t) (bs.getD t '?')).1) :=
  assignList_getD bs (0, nulChar) t ht

theorem getArgInfo_of_scan_ok {W N : Nat} {bs : List Char} {M S : List Nat}
    (h : GetArgInfoScan W N bs = .ok (M, S)) :
    GetArgInfo W N bs
      = if M.all (fun m => m != 0) then .ok (M, S) else .error .assertFailed := by
  unfold GetArgInfo
  rw [h]

theorem getArgInfo_of_scan_error {W N : Nat} {bs : List Char} {e : ArgError}
    (h : GetArgInfoScan W N bs = .error e) : GetArgInfo W N bs = .error e := by
  unfold GetArgInfo
  rw [h]

theorem all_bne_zero_true {M : List Nat} (h : ∀ m ∈ M, m ≠ 0) :
    M.all (fun m => m != 0) = true :=
  List.all_eq_true.mpr (fun m hm => by simpa using h m hm)

theorem all_bne_zero_false {M : List Nat} (hmem : (0 : Nat) ∈ M) :
    M.all (fun m => m != 0) = false := by
  cases hall : M.all (fun m => m != 0)
  · rfl
  · exact absurd (List.all_eq_true.mp hall 0 hmem) (by simp)

/-- Scan success with the spec-side field table, whenever the field count does
not exceed the declared arity. -/
theorem getArgInfoScan_ok (W N : Nat) (bs : List Char)
    (hNul : ∀ c ∈ bs, c ≠ nulChar) (hle : fieldCount bs ≤ N) :
    ∃ M S, GetArgInfoScan W N bs = .ok (M, S) ∧ M.length = N ∧ S.length = N
      ∧ ∀ k, k < N →
          M.getD k 0 = specFieldMask W bs k ∧ S.getD k 0 = specFieldShift W bs k := by
  obtain ⟨M, S, hrun, hMl, hSl, hMS⟩ := argScanGo_ok W N bs 0 (0, nulChar)
    (List.replicate N 0) (List.replicate N 0) (by simp) (by simp)
    (fun a ha k hk => Nat.lt_of_lt_of_le (assigned_lt bs hNul _ a ha k hk) hle)
  refine ⟨M, S, hrun, hMl, hSl, fun k hk => ?_⟩
  constructor
  · rw [(hMS k hk).1, getD_replicate_zero, Nat.zero_or]
    rfl
  · rw [(hMS k hk).2, getD_replicate_zero]
    rfl

theorem specFieldMask_ne_zero (W : Nat) (bs : List Char)
    (hNul : ∀ c ∈ bs, c ≠ nulChar) {k : Nat} (hk : k < fieldCount bs) :
    specFieldMask W bs k ≠ 0 :=
  specMaskGo_ne_zero W k (assignList bs) 0
    (assigned_cover bs hNul (0, nulChar) k (by rw [gWeight_start]; exact Nat.zero_le k) hk)

theorem specFieldMask_eq_zero (W : Nat) (bs : List Char)
    (hNul : ∀ c ∈ bs, c ≠ nulChar) {k : Nat} (hk : fieldCount bs ≤ k) :
    specFieldMask W bs k = 0 := by
  apply specMaskGo_absent
  intro hmem
  have hnk : ¬(k < fieldCount bs) := by omega
  exact absurd (assigned_lt bs hNul (0, nulChar) (some k) hmem k rfl) hnk

/-- With exactly `N` fields, the scan succeeds, every returned mask is
non-zero, the trailing assertion passes, and the tables are the spec-side
field masks and shifts. -/
theorem complete_result (W N : Nat) (bs : List Char)
    (hNul : ∀ c ∈ bs, c ≠ nulChar) (hCount : fieldCount bs = N) :
    ∃ M S, GetArgInfoScan W N bs = .ok (M, S) ∧ GetArgInfo W N bs = .ok (M, S)
      ∧ M.length = N ∧ S.length = N
      ∧ (∀ m ∈ M, m ≠ 0)
      ∧ ∀ k, k < N →
          M.getD k 0 = specFieldMask W bs k ∧ S.getD k 0 = specFieldShift W bs k := by
  obtain ⟨M, S, hrun, hMl, hSl, hMS⟩ :=
    getArgInfoScan_ok W N bs hNul (Nat.le_of_eq hCount)
  have hnz : ∀ m ∈ M, m ≠ 0 := by
    intro m hm
    obtain ⟨idx, hidx, hEq⟩ := List.mem_iff_getElem.mp hm
    have hidxN : idx < N := by rw [← hMl]; exact hidx
    have : M.getD idx 0 = m := by rw [List.getD_eq_getElem _ _ hidx, hEq]
    rw [← this, (hMS idx hidxN).1]
    have hidxC : idx < fieldCount bs := by omega
    exact specFieldMask_ne_zero W bs hNul hidxC
  refine ⟨M, S, hrun, ?_, hMl, hSl, hnz, hMS⟩
  rw [getArgInfo_of_scan_ok hrun, if_pos (all_bne_zero_true hnz)]

/-- With more fields than the declared arity, the scan throws
`std::out_of_range`. -/
theorem overcount_result (W N : Nat) (bs : List Char)
    (hNul : ∀ c ∈ bs, c ≠ nulChar) (hCount : N < fieldCount bs) :
    GetArgInfoScan W N bs = .error .outOfRange
      ∧ GetArgInfo W N bs = .error .outOfRange := by
  have hmem : some N ∈ assignList bs :=
    assigned_cover bs hNul (0, nulChar) N (by rw [gWeight_start]; exact Nat.zero_le N) hCount
  have hscan : GetArgInfoScan W N bs = .error .outOfRange :=
    argScanGo_error W N bs 0 (0, nulChar) _ _ ⟨some N, hmem, N, rfl, Nat.le_refl N⟩
  exact ⟨hscan, getArgInfo_of_scan_error hscan⟩

/-- With fewer fields than the declared arity, the scan completes, the mask
table keeps a zero entry, and only the trailing assertion fails. -/
theorem undercount_result (W N : Nat) (bs : List Char)
    (hNul : ∀ c ∈ bs, c ≠ nulChar) (hCount : fieldCount bs < N) :
    ∃ M S, GetArgInfoScan W N bs = .ok (M, S) ∧ (0 : Nat) ∈ M
      ∧ GetArgInfo W N bs = .error .assertFailed := by
  obtain ⟨M, S, hrun, hMl, hSl, hMS⟩ :=
    getArgInfoScan_ok W N bs hNul (Nat.le_of_lt hCount)
  have hN1 : N - 1 < N := by omega
  have hz : M.getD (N - 1) 0 = 0 := by
    rw [(hMS (N - 1) hN1).1]
    have hC : fieldCount bs ≤ N - 1 := by omega
    exact specFieldMask_eq_zero W bs hNul hC
  have hmem : (0 : Nat) ∈ M := by
    rw [List.getD_eq_getElem _ _ (by omega)] at hz
    rw [← hz]
    exact List.getElem_mem _
  refine ⟨M, S, hrun, hmem, ?_⟩
  rw [getArgInfo_of_scan_ok hrun, if_neg (by rw [all_bne_zero_false hmem]; simp)]

/-! ### Claim theorems -/

/-- C1: for a pattern of exactly `W` characters, bit `W-1-i` of the mask returned
by `GetMaskAndExpect` is set iff the character at position `i` is `'0'` or `'1'`,
bit `W-1-i` of the expected value is set iff that character is `'1'` (all other
characters leave both bits 0); consequently a pattern of only `'0'`/`'1'`
characters has mask `2^W - 1` and expected value equal to the pattern read as a
binary integer. -/
theorem getMaskAndExpect_bit_spec (W : Nat) (bs : List Char) (hLen : bs.length = W) :
    (∀ i, i < W →
      (GetMaskAndExpect W bs).1.testBit (W - 1 - i)
          = (bs.getD i '?' == '0' || bs.getD i '?' == '1')
        ∧ (GetMaskAndExpect W bs).2.testBit (W - 1 - i) = (bs.getD i '?' == '1'))
    ∧ ((∀ c ∈ bs, c = '0' ∨ c = '1') →
        (GetMaskAndExpect W bs).1 = 2 ^ W - 1
          ∧ (GetMaskAndExpect W bs).2 = patBits expectDigit bs) := by
  subst hLen
  rw [GetMaskAndExpect_eq _ _ rfl]
  constructor
  · intro i hi
    constructor
    · rw [patBits_testBit maskDigit_le_one bs i hi]
      generalize bs.getD i '?' = c
      by_cases h0 : c = '0' <;> by_cases h1 : c = '1' <;> simp [maskDigit, h0, h1]
    · rw [patBits_testBit expectDigit_le_one bs i hi]
      generalize bs.getD i '?' = c
      by_cases h1 : c = '1' <;> simp [expectDigit, h1]
  · intro hbin
    refine ⟨?_, rfl⟩
    apply Nat.eq_of_testBit_eq
    intro j
    rw [Nat.testBit_two_pow_sub_one]
    by_cases hj : j < bs.length
    · have hi : bs.length - 1 - j < bs.length := by omega
      have hpos : bs.length - 1 - (bs.length - 1 - j) = j := by omega
      have hbit := patBits_testBit maskDigit_le_one bs (bs.length - 1 - j) hi
      rw [hpos] at hbit
      rw [hbit]
      have hmem : bs.getD (bs.length - 1 - j) '?' ∈ bs := by
        rw [List.getD_eq_getElem _ _ hi]; exact List.getElem_mem hi
      rcases hbin _ hmem with h | h <;> rw [h] <;> simp [maskDigit, hj]
    · rw [patBits_testBit_ge maskDigit_le_one bs (by omega)]
      simp [hj]

theorem getMaskAndExpect_bit_spec_witness :
    (['1', '0', 'a'] : List Char).length = 3
    ∧ (GetMaskAndExpect 3 ['1', '0', 'a']).1.testBit (3 - 1 - 0)
        = ((['1', '0', 'a'] : List Char).getD 0 '?' == '0'
            || (['1', '0', 'a'] : List Char).getD 0 '?' == '1') :=
  ⟨by decide, ((getMaskAndExpect_bit_spec 3 ['1', '0', 'a'] (by decide)).1 0 (by decide)).1⟩

/-- C2: a word `x` satisfies `x & mask == expect` iff every `'0'`/`'1'` position
of the pattern agrees with the corresponding bit of `x`; the bits of `x` at
don't-care and field-marker positions never affect the outcome of the test. -/
theorem decode_match_spec (W : Nat) (bs : List Char) (hLen : bs.length = W) :
    (∀ x : Nat,
      x &&& (GetMaskAndExpect W bs).1 = (GetMaskAndExpect W bs).2 ↔
      ∀ i, i < W →
        (bs.getD i '?' = '0' → x.testBit (W - 1 - i) = false)
        ∧ (bs.getD i '?' = '1' → x.testBit (W - 1 - i) = true))
    ∧ (∀ x y : Nat,
      (∀ i, i < W → bs.getD i '?' = '0' ∨ bs.getD i '?' = '1' →
        x.testBit (W - 1 - i) = y.testBit (W - 1 - i)) →
      (x &&& (GetMaskAndExpect W bs).1 = (GetMaskAndExpect W bs).2 ↔
       y &&& (GetMaskAndExpect W bs).1 = (GetMaskAndExpect W bs).2)) := by
  subst hLen
  rw [GetMaskAndExpect_eq _ _ rfl]
  constructor
  · intro x
    exact matches_iff bs x
  · intro x y hagree
    rw [matches_iff, matches_iff]
    constructor
    · intro hx i hi
      refine ⟨fun h0 => ?_, fun h1 => ?_⟩
      · rw [← hagree i hi (Or.inl h0)]; exact (hx i hi).1 h0
      · rw [← hagree i hi (Or.inr h1)]; exact (hx i hi).2 h1
    · intro hy i hi
      refine ⟨fun h0 => ?_, fun h1 => ?_⟩
      · rw [hagree i hi (Or.inl h0)]; exact (hy i hi).1 h0
      · rw [hagree i hi (Or.inr h1)]; exact (hy i hi).2 h1

theorem decode_match_spec_witness :
    (['1', '0', 'a', 'a', 'b', 'b', 'b', '-'] : List Char).length = 8
    ∧ 0b10101100 &&& (GetMaskAndExpect 8 ['1', '0', 'a', 'a', 'b', 'b', 'b', '-']).1
        = (GetMaskAndExpect 8 ['1', '0', 'a', 'a', 'b', 'b', 'b', '-']).2 :=
  ⟨by decide,
    ((decode_match_spec 8 ['1', '0', 'a', 'a', 'b', 'b', 'b', '-'] (by decide)).1
      0b10101100).mpr (by decide)⟩

/-- C3: for a pattern with exactly `N` distinct fields, `GetArgInfo` returns,
for each field index, the OR of the single-bit masks at every position
assigned to that field, and the shift it returns is the bit position
`W - 1 - t` of the last-scanned position `t` assigned to that field. -/
theorem getArgInfo_fields_spec (W N : Nat) (bs : List Char) (hLen : bs.length = W)
    (hNul : ∀ c ∈ bs, c ≠ nulChar) (hCount : fieldCount bs = N) :
    ∃ M S, GetArgInfo W N bs = .ok (M, S) ∧ M.length = N ∧ S.length = N
      ∧ ∀ k, k < N →
          M.getD k 0 = specFieldMask W bs k
          ∧ S.getD k 0 = specFieldShift W bs k
          ∧ ∃ t, t < bs.length ∧ (assignList bs).getD t none = some k
              ∧ (∀ u, t < u → u < bs.length → (assignList bs).getD u none ≠ some k)
              ∧ S.getD k 0 = W - t - 1 := by
  obtain ⟨M, S, hscan, hok, hMl, hSl, hnz, hMS⟩ := complete_result W N bs hNul hCount
  refine ⟨M, S, hok, hMl, hSl, fun k hk => ?_⟩
  refine ⟨(hMS k hk).1, (hMS k hk).2, ?_⟩
  have hkc : k < fieldCount bs := by omega
  have hmem : some k ∈ assignList bs :=
    assigned_cover bs hNul (0, nulChar) k (by rw [gWeight_start]; exact Nat.zero_le k) hkc
  obtain ⟨t, ht, hget, hafter, heval⟩ := specShiftGo_last W k (assignList bs) hmem
  have hlenA : (assignList bs).length = bs.length := assignListGo_length bs (0, nulChar)
  refine ⟨t, by omega, hget, fun u hu1 hu2 => hafter u hu1 (by omega), ?_⟩
  rw [(hMS k hk).2]
  unfold specFieldShift
  rw [heval 0 0]
  omega

theorem getArgInfo_fields_spec_witness :
    (GetArgInfo 8 2 ['1', '0', 'a', 'a', 'b', 'b', 'b', '-']).toOption.isSome = true := by
  obtain ⟨M, S, hok, -, -, -⟩ := getArgInfo_fields_spec 8 2
    ['1', '0', 'a', 'a', 'b', 'b', 'b', '-'] (by decide) (by decide) (by decide)
  rw [hok]
  rfl

/-- C5: field indices are assigned in strictly increasing order of first
appearance: the first recorded index is 0 and consecutive recorded indices
step by 0 or 1; two adjacent runs of different marker characters get distinct
consecutive indices; and a marker run separated from an earlier one by a
`'0'`/`'1'`/`'-'` always gets a strictly larger index, even for the same
marker character. -/
theorem field_index_order_spec (bs : List Char) (hNul : ∀ c ∈ bs, c ≠ nulChar) :
    (∀ k, (assignedGo bs (0, nulChar)).head? = some k → k = 0)
    ∧ List.Chain' (fun a b => b = a ∨ b = a + 1) (assignedGo bs (0, nulChar))
    ∧ (∀ t, t + 1 < bs.length →
        isFixedOrDontCare (bs.getD t '?') = false →
        isFixedOrDontCare (bs.getD (t + 1) '?') = false →
        bs.getD t '?' ≠ bs.getD (t + 1) '?' →
        ∀ k, (assignList bs).getD t none = some k →
          (assignList bs).getD (t + 1) none = some (k + 1))
    ∧ (∀ t u v, t < u → u < v → v < bs.length →
        isFixedOrDontCare (bs.getD t '?') = false →
        isFixedOrDontCare (bs.getD u '?') = true →
        isFixedOrDontCare (bs.getD v '?') = false →
        ∀ k k', (assignList bs).getD t none = some k →
          (assignList bs).getD v none = some k' → k < k') := by
  refine ⟨?_, (assigned_chain bs hNul (0, nulChar)).1, ?_, ?_⟩
  · intro k hk
    rcases (assigned_chain bs hNul (0, nulChar)).2 k hk with h | h
    · exact h
    · exact absurd h.1 (by simp)
  · intro t ht hm1 hm2 hne k hk
    have h1 := assignList_getD0 bs t (by omega)
    rw [if_neg (by rw [hm1]; simp)] at h1
    have hkk : (cursorStep (stateAt bs t) (bs.getD t '?')).1 = k :=
      Option.some.inj (h1.symm.trans hk)
    have hstate : stateAt bs (t + 1) = cursorStep (stateAt bs t) (bs.getD t '?') :=
      stateAt_succ bs t (by omega)
    have h2 := assignList_getD0 bs (t + 1) ht
    rw [if_neg (by rw [hm2]; simp)] at h2
    rw [h2]
    have hsnd : (stateAt bs (t + 1)).2 = bs.getD t '?' := by
      rw [hstate]; exact cursorStep_marker_snd hm1 _
    have hfst : (stateAt bs (t + 1)).1 = k := by rw [hstate]; exact hkk
    have hnz : (stateAt bs (t + 1)).2 ≠ nulChar := by
      rw [hsnd]; exact hNul _ (getD_mem_of_lt (by omega))
    have hnc : (stateAt bs (t + 1)).2 ≠ bs.getD (t + 1) '?' := by
      rw [hsnd]; exact hne
    rw [cursorStep_marker_new hm2 hnz hnc, hfst]
  · intro t u v htu huv hv hm1 hm2 hm3 k k' hk hk'
    have h1 := assignList_getD0 bs t (by omega)
    rw [if_neg (by rw [hm1]; simp)] at h1
    have hkk : (cursorStep (stateAt bs t) (bs.getD t '?')).1 = k :=
      Option.some.inj (h1.symm.trans hk)
    have hstatet : stateAt bs (t + 1) = cursorStep (stateAt bs t) (bs.getD t '?') :=
      stateAt_succ bs t (by omega)
    have hg1 : gWeight (stateAt bs (t + 1)) = k + 1 := by
      unfold gWeight
      rw [hstatet, hkk, cursorStep_marker_snd hm1 _,
        if_neg (hNul _ (getD_mem_of_lt (by omega : t < bs.length)))]
    have hg2 : k + 1 ≤ gWeight (stateAt bs u) := by
      rw [← hg1]
      exact gWeight_stateAt_mono bs hNul (t + 1) u (by omega) (by omega)
    have hstateu : stateAt bs (u + 1) = cursorStep (stateAt bs u) (bs.getD u '?') :=
      stateAt_succ bs u (by omega)
    have hsndu : (stateAt bs (u + 1)).2 = nulChar := by
      rw [hstateu]; exact cursorStep_sep_snd hm2 _
    have hgu : gWeight (stateAt bs (u + 1)) = gWeight (stateAt bs u) := by
      rw [hstateu]; exact gWeight_sep_eq hm2 _
    have hgfst : gWeight (stateAt bs (u + 1)) = (stateAt bs (u + 1)).1 := by
      unfold gWeight
      rw [if_pos hsndu]
      omega
    have hfstv : (stateAt bs (u + 1)).1 ≤ (stateAt bs v).1 :=
      fst_stateAt_mono bs (u + 1) v (by omega) (by omega)
    have h3 := assignList_getD0 bs v (by omega)
    rw [if_neg (by rw [hm3]; simp)] at h3
    have hkk' : (cursorStep (stateAt bs v) (bs.getD v '?')).1 = k' :=
      Option.some.inj (h3.symm.trans hk')
    have hle := cursorStep_fst_le (stateAt bs v) (bs.getD v '?')
    omega

theorem field_index_order_spec_witness :
    (assignList ['a', 'b', '-', 'a']).getD 1 none = some (0 + 1) :=
  (field_index_order_spec ['a', 'b', '-', 'a'] (by decide)).2.2.1 0 (by decide)
    (by decide) (by decide) (by decide) 0 (by decide)

/-- C6: a pattern with more distinct fields than the declared arity `N`
(for `N = 0`: any pattern with a field marker) makes `GetArgInfo` throw
`std::out_of_range` during the scan, before any table is returned. -/
theorem getArgInfo_overcount_spec (W N : Nat) (bs : List Char)
    (hNul : ∀ c ∈ bs, c ≠ nulChar) (hCount : N < fieldCount bs) :
    GetArgInfoScan W N bs = .error .outOfRange
      ∧ GetArgInfo W N bs = .error .outOfRange :=
  overcount_result W N bs hNul hCount

theorem getArgInfo_overcount_spec_witness :
    GetArgInfo 3 1 ['a', '-', 'a'] = .error .outOfRange
    ∧ GetArgInfoScan 1 0 ['a'] = .error .outOfRange :=
  ⟨(getArgInfo_overcount_spec 3 1 ['a', '-', 'a'] (by decide) (by decide)).2,
    (getArgInfo_overcount_spec 1 0 ['a'] (by decide) (by decide)).1⟩

/-- C7: whenever the pattern's field count differs from the declared arity,
in either direction, `GetArgInfo` (with assertions enabled) fails at build
time with one of its two defects. -/
theorem getArgInfo_arity_mismatch_spec (W N : Nat) (bs : List Char)
    (hNul : ∀ c ∈ bs, c ≠ nulChar) (hCount : fieldCount bs ≠ N) :
    ∃ e, GetArgInfo W N bs = .error e := by
  rcases Nat.lt_or_ge N (fieldCount bs) with h | h
  · exact ⟨.outOfRange, (overcount_result W N bs hNul h).2⟩
  · have hlt : fieldCount bs < N := by omega
    obtain ⟨M, S, -, -, herr⟩ := undercount_result W N bs hNul hlt
    exact ⟨.assertFailed, herr⟩

theorem getArgInfo_arity_mismatch_spec_witness :
    (GetArgInfo 4 3 ['a', 'b', '-', '-']).toOption.isSome = false := by
  obtain ⟨e, he⟩ :=
    getArgInfo_arity_mismatch_spec 4 3 ['a', 'b', '-', '-'] (by decide) (by decide)
  rw [he]
  rfl

/-- C8: a pattern with exactly `N` distinct fields completes `GetArgInfo`
without throwing, and every returned mask entry is non-zero, so the trailing
assertion always passes. -/
theorem getArgInfo_complete_spec (W N : Nat) (bs : List Char) (_hLen : bs.length = W)
    (hNul : ∀ c ∈ bs, c ≠ nulChar) (hCount : fieldCount bs = N) :
    ∃ M S, GetArgInfoScan W N bs = .ok (M, S) ∧ GetArgInfo W N bs = .ok (M, S)
      ∧ ∀ m ∈ M, m ≠ 0 := by
  obtain ⟨M, S, hscan, hok, -, -, hnz, -⟩ := complete_result W N bs hNul hCount
  exact ⟨M, S, hscan, hok, hnz⟩

theorem getArgInfo_complete_spec_witness :
    (GetArgInfoScan 3 1 ['a', 'a', '0']).toOption.isSome = true := by
  obtain ⟨M, S, hscan, -, -⟩ :=
    getArgInfo_complete_spec 3 1 ['a', 'a', '0'] (by decide) (by decide) (by decide)
  rw [hscan]
  rfl

/-- C10: a pattern with fewer distinct fields than the declared arity never
triggers the out-of-range throw: the scan completes with a zero entry left in
the mask table, and only the trailing assertion (absent under
`DYNARMIC_IGNORE_ASSERTS`) reports the mismatch. -/
theorem getArgInfo_undercount_spec (W N : Nat) (bs : List Char)
    (hNul : ∀ c ∈ bs, c ≠ nulChar) (hCount : fieldCount bs < N) :
    ∃ M S, GetArgInfoScan W N bs = .ok (M, S) ∧ (0 : Nat) ∈ M
      ∧ GetArgInfo W N bs = .error .assertFailed :=
  undercount_result W N bs hNul hCount

theorem getArgInfo_undercount_spec_witness :
    GetArgInfo 4 3 ['a', 'b', '-', '-'] = .error .assertFailed := by
  obtain ⟨M, S, -, -, he⟩ :=
    getArgInfo_undercount_spec 4 3 ['a', 'b', '-', '-'] (by decide) (by decide)
  exact he

/-- C9: field extraction round-trips — when a single-field pattern compiles to
mask `m` and shift `s`, any word `x` whose field bits hold `v` (that is,
`x &&& m = v <<< s`) extracts back to exactly `v`. -/
theorem field_roundtrip_spec (W : Nat) (bs : List Char) (m s v x : Nat)
    (_hCount : fieldCount bs = 1) (_hok : GetArgInfo W 1 bs = .ok ([m], [s]))
    (hx : x &&& m = v <<< s) : (x &&& m) >>> s = v := by
  rw [hx, Nat.shiftLeft_eq, Nat.shiftRight_eq_div_pow]
  exact Nat.mul_div_cancel v (Nat.pos_pow_of_pos s (by norm_num))

theorem field_roundtrip_spec_witness :
    fieldCount ['1', 'a', 'a', '0'] = 1
    ∧ GetArgInfo 4 1 ['1', 'a', 'a', '0'] = .ok ([6], [1])
    ∧ (13 &&& 6) >>> 1 = 2 :=
  ⟨by decide, by rfl,
    field_roundtrip_spec 4 ['1', 'a', 'a', '0'] 6 1 2 13 (by decide) (by rfl) (by decide)⟩

/-- A helper characterizing `packArgs` entrywise: the argument pack lists, in
order, each cast applied to its mask-and-shift extraction. -/
theorem packArgs_eq (x : Nat) :
    ∀ (casts : List (Nat → Nat)) (ms ss : List Nat),
      casts.length = ms.length → ss.length = ms.length →
      packArgs x casts ms ss
        = (List.range ms.length).map
            (fun t => (casts.getD t id) ((x &&& ms.getD t 0) >>> ss.getD t 0)) := by
  intro casts
  induction casts with
  | nil =>
    intro ms ss h1 h2
    cases ms with
    | cons m ms' => simp at h1
    | nil => simp [packArgs]
  | cons ca cs ih =>
    intro ms ss h1 h2
    cases ms with
    | nil => simp at h1
    | cons m ms' =>
      cases ss with
      | nil => simp at h2
      | cons sh ss' =>
        simp only [List.length_cons] at h1 h2
        show ca ((x &&& m) >>> sh) :: packArgs x cs ms' ss'
          = (List.range (ms'.length + 1)).map _
        rw [List.range_succ_eq_map, List.map_cons, List.map_map]
        congr 1
        rw [ih ms' ss' (by omega) (by omega)]
        apply List.map_congr_left
        intro a _
        simp [Function.comp, List.getD_cons_succ]

/-- C4: the dispatch callable built by `VisitorCaller::Make` (as bundled by
`GetMatcher`) calls the handler on the visitor and, in declaration order, each
argument obtained by masking, shifting and then casting:
`cast_t ((x & mask_t) >> shift_t)`. -/
theorem dispatch_spec {V R : Type} (fn : V → List Nat → R) (casts : List (Nat → Nat))
    (name : String) (me : Nat × Nat) (ms ss : List Nat)
    (hc : casts.length = ms.length) (hsl : ss.length = ms.length) (v : V) (x : Nat) :
    (GetMatcher fn casts name me (ms, ss)).fn v x
      = fn v ((List.range ms.length).map
          (fun t => (casts.getD t id) ((x &&& ms.getD t 0) >>> ss.getD t 0))) := by
  show fn v (packArgs x casts ms ss) = _
  rw [packArgs_eq x casts ms ss hc hsl]

theorem dispatch_spec_witness :
    (GetMatcher (fun (v : Nat) (args : List Nat) => v + args.sum) [id, id] "ex"
        (192, 128) ([48, 14], [4, 1])).fn 5 0b10101100
      = (fun (v : Nat) (args : List Nat) => v + args.sum) 5
          ((List.range ([48, 14] : List Nat).length).map
            (fun t => (([id, id] : List (Nat → Nat)).getD t id)
              ((0b10101100 &&& ([48, 14] : List Nat).getD t 0)
                >>> ([4, 1] : List Nat).getD t 0))) :=
  dispatch_spec (fun v args => v + args.sum) [id, id] "ex" (192, 128) [48, 14] [4, 1]
    rfl rfl 5 0b10101100

end Dynarmic.Decoder
